import Mathlib

set_option linter.unusedVariables false

/-! Verification development for the flask-app repository: the two Pulumi
front-end programs (`IaC/__main__.py` and `pulumi-aks-acr/__main__.py`), the
Flask demo application (`app/app.py`), and the declarative reconciliation
engine that the specification defines and that the front-end programs consume
as a black box (graph builder, diff engine, scheduler/executor, retry policy).
The front-end programs and the Flask handler are embedded from the source;
the engine components are modelled from the specification. -/

namespace Pulumi

/-- A symbolic value flowing through a Pulumi program: a literal, a property
of a declared resource, a field of a data-source invoke result, or the result
of an `apply` transformation. -/
inductive PValue : Type
  | lit (s : String)
  | resourceProp (res : String) (path : List String)
  | invokeProp (invokeName : String) (path : List String)
  | transformed (descr : String) (v : PValue)
deriving DecidableEq

/-- A Pulumi `Output`: a future value together with its secretness flag.
`Output.secret` sets the flag; `apply` and property lifting preserve it. -/
structure POut where
  value : PValue
  isSecret : Bool
deriving DecidableEq

/-- Result of a data-source invoke (such as
`list_managed_cluster_user_credentials_output`): a plain, non-secret output. -/
def invokeOutput (invokeName : String) : POut :=
  { value := .invokeProp invokeName [], isSecret := false }

/-- `pulumi.Output.secret`: marks the output's content as secret. -/
def secretOf (o : POut) : POut :=
  { o with isSecret := true }

/-- Lifting a property access through an output (for instance
`credentials.kubeconfigs[0].value`); the secretness flag is preserved. -/
def POut.getProp (o : POut) (path : List String) : POut :=
  { value :=
      match o.value with
      | .invokeProp n p => .invokeProp n (p ++ path)
      | .resourceProp r p => .resourceProp r (p ++ path)
      | v => .transformed "prop" v
  , isSecret := o.isSecret }

/-- `Output.apply`: applies a (symbolically named) transformation to the
value; the secretness flag is preserved, as in Pulumi. -/
def POut.applyT (o : POut) (descr : String) : POut :=
  { value := .transformed descr o.value, isSecret := o.isSecret }

end Pulumi

namespace IaCProgram

/-! Embedding of `src/IaC/__main__.py`. -/

open Pulumi

/-- `credentials = containerservice.list_managed_cluster_user_credentials_output(...)`. -/
def credentials : POut := invokeOutput "list_managed_cluster_user_credentials"

/-- `kubeconfig = Output.secret(credentials.kubeconfigs[0].value).apply(lambda enc: enc.decode("utf-8"))`. -/
def kubeconfig : POut :=
  (secretOf (credentials.getProp ["kubeconfigs", "0", "value"])).applyT "decode utf-8"

/-- `acr_credentials = containerregistry.ListRegistryCredentialsOutput(...)`. -/
def acr_credentials : POut := invokeOutput "ListRegistryCredentials"

/-- The value stored under `".dockerconfigjson"` in the `acr-pull-secret`
Kubernetes secret: `acr_credentials.apply(lambda creds: creds.passwords[0].value)`.
The program never wraps this output in `Output.secret`. -/
def pullSecretDockerconfig : POut := acr_credentials.applyT "passwords 0 value"

/-- `core.v1.ContainerPortArgs` as used by the deployment. -/
structure ContainerPortArgs where
  container_port : Nat
deriving DecidableEq

/-- `core.v1.ServicePortArgs` as used by the service. -/
structure ServicePortArgs where
  port : Nat
  target_port : Nat
deriving DecidableEq

/-- The ports declared on the `flask-app` container of the deployment:
`ports=[core.v1.ContainerPortArgs(container_port=8080)]`. -/
def flaskContainerPorts : List ContainerPortArgs := [{ container_port := 8080 }]

/-- The ports declared on the `flask-service` LoadBalancer service:
`ports=[core.v1.ServicePortArgs(port=80, target_port=8080)]`. -/
def flaskServicePorts : List ServicePortArgs := [{ port := 80, target_port := 8080 }]

end IaCProgram

namespace AksAcrProgram

/-! Embedding of `src/pulumi-aks-acr/__main__.py`. -/

open Pulumi

/-- The invoke inside the kubeconfig export:
`containerservice.list_managed_cluster_user_credentials_output(...)`. -/
def credsInvoke : POut := invokeOutput "list_managed_cluster_user_credentials"

/-- `kubeconfig = Output.secret(list_...(...)).kubeconfigs[0].value.apply(lambda enc: enc.decode("utf-8"))`. -/
def kubeconfig : POut :=
  ((secretOf credsInvoke).getProp ["kubeconfigs", "0", "value"]).applyT "decode utf-8"

/-- `acr.id`: the id of the `myacrregistry` container registry. -/
def acrId : PValue := .resourceProp "myacrregistry" ["id"]

/-- `aks.identity_profile["kubeletidentity"].object_id`: the kubelet identity
of the `aksCluster` managed cluster. -/
def aksKubeletObjectId : PValue :=
  .resourceProp "aksCluster" ["identity_profile", "kubeletidentity", "object_id"]

/-- The id of the `oratio-ai-law_chatbot-aks` resource group (a broader scope
the role assignment could have used, but does not). -/
def resourceGroupId : PValue := .resourceProp "oratio-ai-law_chatbot-aks" ["id"]

/-- The whole subscription as a scope (the broadest scope the role assignment
could have used, but does not). -/
def subscriptionScope : PValue := .lit "/subscriptions/15c9acc7-412b-40d2-94ec-6acc6f51d341"

/-- Arguments of `authorization.RoleAssignment`. -/
structure RoleAssignmentArgs where
  principal_id : PValue
  role_definition_id : String
  scope : PValue
deriving DecidableEq

/-- `role_assignment = RoleAssignment("aksACRRoleAssignment", principal_id=...,
role_definition_id=..., scope=acr.id)`. -/
def role_assignment : RoleAssignmentArgs :=
  { principal_id := aksKubeletObjectId
  , role_definition_id := "/subscriptions/15c9acc7-412b-40d2-94ec-6acc6f51d341/providers/Microsoft.Authorization/roleDefinitions/7f951dda-4ed3-4680-a7ca-43fe172d538d"
  , scope := acrId }

end AksAcrProgram

/-- The credential outputs the two programs produce, persist, or export: the
two AKS kubeconfigs and the ACR registry password stored in the Kubernetes
pull secret. -/
def credentialOutputs : List Pulumi.POut :=
  [IaCProgram.kubeconfig, IaCProgram.pullSecretDockerconfig, AksAcrProgram.kubeconfig]

namespace FlaskApp

/-! Embedding of `src/app/app.py`. -/

/-- A rendered template response: the template file name and the keyword
arguments passed to `render_template`. -/
inductive HttpResponse : Type
  | page (template : String) (params : List (String × String))
deriving DecidableEq

/-- The socket environment the handler runs in: `socket.gethostname()` and
`socket.gethostbyname(...)`, each either returning a value or raising. -/
structure SocketEnv where
  gethostname : Except String String
  gethostbyname : String → Except String String

/-- The `index` route handler: inside `try`, look up the hostname and its IP
and render `index.html` with both; on any raised exception render
`error.html`. -/
def index (env : SocketEnv) : HttpResponse :=
  match env.gethostname with
  | .error _ => .page "error.html" []
  | .ok h =>
    match env.gethostbyname h with
    | .error _ => .page "error.html" []
    | .ok ip => .page "index.html" [("hostname", h), ("ip", ip)]

/-- `app.run(host='0.0.0.0', port=8080)`. -/
def appRunHost : String := "0.0.0.0"

/-- The port the Flask app listens on: `app.run(..., port=8080)`. -/
def appRunPort : Nat := 8080

end FlaskApp

namespace Engine

/-! Modelled from the spec: the declarative reconciliation engine
(Resource Graph Builder, Diff Engine, Scheduler/Executor, retry policy) that
the repository's two `__main__` programs consume as an opaque dependency; the
repository contains none of this engine, so it is embedded from the
specification's component design (spec sections 3 to 8). -/

/-- Modelled from the spec: a resource declaration submitted by a front end —
a logical name (unique within a run), a resource type, desired input
properties, and the logical names of the declarations its inputs reference
(the dependency edges). -/
structure Decl where
  name : String
  rtype : String
  inputs : List (String × String)
  refs : List String
deriving DecidableEq

/-- The logical names of a declaration list, in order. -/
def declNames (ds : List Decl) : List String := ds.map Decl.name

/-- Dependency edge relation of a declaration list: `edgeOf ds a b` holds when
the declaration named `a` references the declaration named `b`
(`a` depends on `b`). -/
def edgeOf (ds : List Decl) (a b : String) : Prop :=
  ∃ d ∈ ds, d.name = a ∧ b ∈ d.refs

/-- The declaration list contains a dependency cycle: some name reaches
itself through one or more dependency edges. -/
def Cyclic (ds : List Decl) : Prop :=
  ∃ a, Relation.TransGen (edgeOf ds) a a

/-- Modelled from the spec: the fatal pre-execution errors of the Graph
Builder — duplicate logical name, reference to an undeclared resource, or a
dependency cycle (reported with the offending nodes). -/
inductive GraphError : Type
  | duplicateName (n : String)
  | danglingRef (node target : String)
  | cycle (path : List String)
deriving DecidableEq

/-- `topoOkFrom seen ds = true` when every declaration of `ds` references only
names among `seen` or names of earlier declarations of `ds`; with `seen = []`
this says `ds` is a valid topological ordering. -/
def topoOkFrom (seen : List String) : List Decl → Bool
  | [] => true
  | d :: rest =>
    d.refs.all (fun r => decide (r ∈ seen)) && topoOkFrom (seen ++ [d.name]) rest

/-- First name that occurs more than once in the list, if any. -/
def firstDup : List String → Option String
  | [] => none
  | n :: rest => if n ∈ rest then some n else firstDup rest

/-- First reference to a name outside `names`, if any: returns the referring
declaration's name together with the undeclared target. -/
def findDangling (names : List String) : List Decl → Option (String × String)
  | [] => none
  | d :: rest =>
    match d.refs.find? (fun r => decide (r ∉ names)) with
    | some r => some (d.name, r)
    | none => findDangling names rest

/-- First pending declaration all of whose references are already placed,
together with the remaining pending declarations. -/
def pickReady (placed : List String) : List Decl → Option (Decl × List Decl)
  | [] => none
  | d :: rest =>
    if d.refs.all (fun r => decide (r ∈ placed)) then some (d, rest)
    else
      match pickReady placed rest with
      | some (e, es) => some (e, d :: es)
      | none => none

/-- Modelled from the spec: the topological walk of the Graph Builder —
repeatedly place a declaration whose references are all placed; if none is
ready while declarations remain, a dependency cycle blocks them and the
builder fails naming the stuck nodes. `fuel` bounds the recursion and is
called with the number of declarations. -/
def topoAux : Nat → List Decl → List Decl → Except GraphError (List Decl)
  | _, placed, [] => .ok placed
  | 0, _, p :: ps => .error (.cycle (declNames (p :: ps)))
  | fuel + 1, placed, p :: ps =>
    match pickReady (declNames placed) (p :: ps) with
    | some (d, rest) => topoAux fuel (placed ++ [d]) rest
    | none => .error (.cycle (declNames (p :: ps)))

/-- Modelled from the spec: the Resource Graph Builder — fails on duplicate
logical names, on references to undeclared resources, and on dependency
cycles; otherwise returns the declarations in a valid topological order. -/
def buildGraph (ds : List Decl) : Except GraphError (List Decl) :=
  match firstDup (declNames ds) with
  | some n => .error (.duplicateName n)
  | none =>
    match findDangling (declNames ds) ds with
    | some (a, r) => .error (.danglingRef a r)
    | none => topoAux ds.length [] ds

/-- The resource declarations of `src/IaC/__main__.py`, in program order,
with the dependency references each declaration embeds. -/
def iacDecls : List Decl :=
  [ { name := "flask-rg", rtype := "azure:ResourceGroup", inputs := [], refs := [] }
  , { name := "flaskacr", rtype := "azure:Registry"
    , inputs := [("sku", "Basic"), ("admin_user_enabled", "true")]
    , refs := ["flask-rg"] }
  , { name := "aksdemocluster", rtype := "azure:ManagedCluster"
    , inputs := [("dns_prefix", "aksdemocluster"), ("kubernetes_version", "1.24.0")]
    , refs := ["flask-rg"] }
  , { name := "k8s-provider", rtype := "pulumi:providers:kubernetes"
    , inputs := [], refs := ["flask-rg", "aksdemocluster"] }
  , { name := "flask-app-deployment", rtype := "kubernetes:Deployment"
    , inputs := [("replicas", "2")], refs := ["k8s-provider", "flaskacr"] }
  , { name := "flask-service", rtype := "kubernetes:Service"
    , inputs := [("type", "LoadBalancer")], refs := ["k8s-provider"] }
  , { name := "acr-pull-secret", rtype := "kubernetes:Secret"
    , inputs := [("type", "kubernetes.io/docker-registry")]
    , refs := ["k8s-provider", "flask-rg", "flaskacr"] }
  ]

/-- The resource declarations of `src/pulumi-aks-acr/__main__.py`, in program
order, with the dependency references each declaration embeds. -/
def aksAcrDecls : List Decl :=
  [ { name := "oratio-ai-law_chatbot-aks", rtype := "azure:ResourceGroup"
    , inputs := [], refs := [] }
  , { name := "myacrregistry", rtype := "azure:Registry"
    , inputs := [("sku", "Basic"), ("admin_user_enabled", "true")]
    , refs := ["oratio-ai-law_chatbot-aks"] }
  , { name := "aks-workspace", rtype := "azure:Workspace"
    , inputs := [("sku", "PerGB2018"), ("retention_in_days", "30")]
    , refs := ["oratio-ai-law_chatbot-aks"] }
  , { name := "aksCluster", rtype := "azure:ManagedCluster"
    , inputs := [("dns_prefix", "mypulumiaks"), ("node_resource_group", "aks_nodes_rg")]
    , refs := ["oratio-ai-law_chatbot-aks", "aks-workspace"] }
  , { name := "aksACRRoleAssignment", rtype := "azure:RoleAssignment"
    , inputs := [], refs := ["aksCluster", "myacrregistry"] }
  ]

/-! Scheduler/Executor trace model (spec sections 4.4 and 5): a run is a list
of observable events; a node's apply may start only when the node has not
started yet and every dependency is committed. -/

/-- Lifecycle status of a node during one scheduler run. -/
inductive RunStatus : Type
  | notStarted
  | running
  | committed
deriving DecidableEq

/-- Observable scheduler events: a node's apply starting, and a node's
successful terminal state being committed. -/
inductive Event : Type
  | applyStart (n : String)
  | commit (n : String)
deriving DecidableEq

/-- The dependency names of the node called `n` in the graph. -/
def depsOf (g : List Decl) (n : String) : List String :=
  match g.find? (fun d => decide (d.name = n)) with
  | some d => d.refs
  | none => []

/-- Pointwise update of a status assignment. -/
def upd (st : String → RunStatus) (n : String) (v : RunStatus) : String → RunStatus :=
  fun m => if m = n then v else st m

/-- Modelled from the spec: validity of an event trace from a given status
assignment — `applyStart n` requires `n` not started and every dependency of
`n` committed; `commit n` requires `n` running. -/
def validFrom (g : List Decl) (st : String → RunStatus) : List Event → Bool
  | [] => true
  | .applyStart n :: tr =>
    decide (st n = .notStarted)
      && (depsOf g n).all (fun b => decide (st b = .committed))
      && validFrom g (upd st n .running) tr
  | .commit n :: tr =>
    decide (st n = .running) && validFrom g (upd st n .committed) tr

/-- The initial status assignment: nothing has started. -/
def initStatus : String → RunStatus := fun _ => .notStarted

/-- A valid execution trace of the engine on graph `g`. -/
def validTrace (g : List Decl) (tr : List Event) : Bool :=
  validFrom g initStatus tr

/-- Replaying the status effects of a list of events (ignoring validity). -/
def replay (st : String → RunStatus) : List Event → (String → RunStatus)
  | [] => st
  | .applyStart n :: tr => replay (upd st n .running) tr
  | .commit n :: tr => replay (upd st n .committed) tr

/-! Deterministic executor with the default partial-failure policy (spec
sections 4.4 and 7): a node fails when it is made to fail deterministically
or when any dependency failed; failures never touch independent nodes. -/

/-- Outcome lookup in the accumulated run report. -/
def lookupRes (acc : List (String × Bool)) (n : String) : Option Bool :=
  (acc.find? (fun e => decide (e.1 = n))).map Prod.snd

/-- Modelled from the spec: executing a topologically ordered declaration
list under the default failure policy; `failing` is the set of nodes made to
fail deterministically, and a node succeeds exactly when it is not failing
and every referenced dependency succeeded (`DependencyFailed` otherwise
propagates a skip). Appends one `(name, succeeded)` entry per node. -/
def execRun (failing : List String) (acc : List (String × Bool)) : List Decl → List (String × Bool)
  | [] => acc
  | d :: rest =>
    let ok := decide (d.name ∉ failing)
      && d.refs.all (fun r => decide (lookupRes acc r = some true))
    execRun failing (acc ++ [(d.name, ok)]) rest

/-! Diff Engine and State Store (spec sections 4.2, 4.3): per-node
classification of desired inputs against the last applied state record. -/

/-- Modelled from the spec: a persisted snapshot of a previously applied
resource — resolved inputs, resolved outputs, provider-assigned identity. -/
structure StateRecord where
  inputs : List (String × String)
  outputs : List (String × String)
  providerId : String
deriving DecidableEq

/-- Modelled from the spec: the provider-declared diff traits for one
resource type — the fields supporting in-place update. -/
structure DiffTraits where
  supportsInPlaceUpdate : List String
deriving DecidableEq

/-- Modelled from the spec: the Diff Engine's per-node classification. -/
inductive Action : Type
  | create
  | update
  | replace
  | unchanged
  | delete
deriving DecidableEq

/-- First-match lookup in a property map. -/
def lookupProp (m : List (String × String)) (k : String) : Option String :=
  (m.find? (fun e => decide (e.1 = k))).map Prod.snd

/-- The fields on which desired and last-applied inputs differ: desired
entries whose value differs from (or is missing in) the prior inputs, and
prior entries absent from the desired inputs. -/
def changedFields (desired prior : List (String × String)) : List String :=
  (desired.filter (fun kv => decide (lookupProp prior kv.1 ≠ some kv.2))).map Prod.fst
    ++ (prior.filter (fun kv => decide (lookupProp desired kv.1 = none))).map Prod.fst

/-- Modelled from the spec: the Diff Engine on one node — no prior record
yields `create`; unchanged inputs yield `unchanged`; changed inputs yield
`update` when the provider supports in-place update for every changed field
and `replace` otherwise. -/
def diffOne (traits : DiffTraits) (desired : List (String × String))
    (prior : Option StateRecord) : Action :=
  match prior with
  | none => .create
  | some r =>
    let ch := changedFields desired r.inputs
    if ch.isEmpty then .unchanged
    else if ch.all (fun f => decide (f ∈ traits.supportsInPlaceUpdate)) then .update
    else .replace

/-- First-match lookup in the State Store. -/
def lookupRec (store : List (String × StateRecord)) (n : String) : Option StateRecord :=
  (store.find? (fun e => decide (e.1 = n))).map Prod.snd

/-- One entry of the per-run action plan. -/
structure PlanEntry where
  name : String
  action : Action
deriving DecidableEq

/-- Modelled from the spec: the full action plan — one diff classification
per declared node, plus a `delete` entry for every name present in the State
Store but absent from the current graph. -/
def planOf (traitsOf : String → DiffTraits) (decls : List Decl)
    (store : List (String × StateRecord)) : List PlanEntry :=
  decls.map (fun d =>
      { name := d.name, action := diffOne (traitsOf d.rtype) d.inputs (lookupRec store d.name) })
    ++ (store.filter (fun e => decide (e.1 ∉ declNames decls))).map
        (fun e => { name := e.1, action := .delete })

/-- A provider CRUD call performed during a run. -/
inductive PCall : Type
  | create (n : String)
  | update (n : String)
  | replace (n : String)
  | delete (n : String)
deriving DecidableEq

/-- The provider call a plan entry gives rise to; `unchanged` performs no
provider call. -/
def callOfEntry (e : PlanEntry) : Option PCall :=
  match e.action with
  | .create => some (.create e.name)
  | .update => some (.update e.name)
  | .replace => some (.replace e.name)
  | .delete => some (.delete e.name)
  | .unchanged => none

/-- The provider calls a plan performs, in plan order. -/
def callsOfPlan (plan : List PlanEntry) : List PCall :=
  plan.filterMap callOfEntry

/-- The record committed for one node at the end of a successful run: an
unchanged node keeps its prior record; a changed or created node's record is
superseded by one carrying the desired inputs. -/
def commitRec (store : List (String × StateRecord)) (d : Decl) : StateRecord :=
  match lookupRec store d.name with
  | some r =>
    if (changedFields d.inputs r.inputs).isEmpty then r
    else { r with inputs := d.inputs }
  | none => { inputs := d.inputs, outputs := [], providerId := d.name }

/-- Modelled from the spec: the State Store after a fully successful run —
each declared node's record is superseded by one carrying the desired inputs
(kept as-is when unchanged), and orphaned records are dropped. -/
def newStore (decls : List Decl) (store : List (String × StateRecord)) :
    List (String × StateRecord) :=
  decls.map (fun d => (d.name, commitRec store d))

/-- Modelled from the spec: one fully successful engine run — the provider
calls it performs and the State Store it leaves behind. -/
def runEngine (traitsOf : String → DiffTraits) (decls : List Decl)
    (store : List (String × StateRecord)) :
    List PCall × List (String × StateRecord) :=
  (callsOfPlan (planOf traitsOf decls store), newStore decls store)

/-! Retry policy (spec section 4.4): transient provider errors are retried
with exponential backoff up to a bounded attempt count; non-transient errors
fail immediately. -/

/-- Provider error taxonomy relevant to retries. -/
inductive ProviderError : Type
  | transient
  | permanent
deriving DecidableEq

/-- The observable outcome of executing one node with retries: how many
provider attempts were made, the backoff delays slept between attempts, and
the final result. -/
structure RetryTrace (α : Type) where
  attempts : Nat
  delays : List Nat
  result : Except ProviderError α

/-- Modelled from the spec: the retry loop — attempt the provider call; on
success or on a non-transient error stop immediately; on a transient error
sleep `base * 2 ^ attemptIndex` and retry, up to the configured attempt
bound (the fuel). -/
def retryExec (provider : Nat → Except ProviderError α) (base : Nat) (k : Nat) :
    Nat → RetryTrace α
  | 0 => { attempts := 0, delays := [], result := .error .transient }
  | fuel + 1 =>
    match provider k with
    | .ok v => { attempts := 1, delays := [], result := .ok v }
    | .error .permanent => { attempts := 1, delays := [], result := .error .permanent }
    | .error .transient =>
      match fuel with
      | 0 => { attempts := 1, delays := [], result := .error .transient }
      | f + 1 =>
        let t := retryExec provider base (k + 1) (f + 1)
        { attempts := t.attempts + 1, delays := base * 2 ^ k :: t.delays, result := t.result }

/-- A node whose retry budget ended in an error is marked failed. -/
def nodeFailed (t : RetryTrace α) : Bool :=
  match t.result with
  | .error _ => true
  | .ok _ => false

/-- Executing one node: up to `n` attempts starting at attempt index 0. -/
def executeNode (provider : Nat → Except ProviderError α) (base n : Nat) : RetryTrace α :=
  retryExec provider base 0 n

/-- Provider stub that raises a transient error on every attempt. -/
def alwaysTransient : Nat → Except ProviderError Unit := fun _ => .error .transient

/-- Provider stub that raises a non-transient error on every attempt. -/
def alwaysPermanent : Nat → Except ProviderError Unit := fun _ => .error .permanent

/-- A declaration list with a duplicated logical name. -/
def dupDecls : List Decl :=
  [ { name := "alpha", rtype := "t", inputs := [], refs := [] }
  , { name := "alpha", rtype := "t", inputs := [], refs := [] } ]

/-- A declaration list referencing an undeclared resource. -/
def dangDecls : List Decl :=
  [ { name := "alpha", rtype := "t", inputs := [], refs := ["ghost"] } ]

/-- A declaration list with a two-node dependency cycle. -/
def cycDecls : List Decl :=
  [ { name := "cycA", rtype := "t", inputs := [], refs := ["cycB"] }
  , { name := "cycB", rtype := "t", inputs := [], refs := ["cycA"] } ]

/-- Two independent nodes. -/
def indepPair : List Decl :=
  [ { name := "left", rtype := "t", inputs := [], refs := [] }
  , { name := "right", rtype := "t", inputs := [], refs := [] } ]

/-- A valid trace running `left` before `right`. -/
def traceLR : List Event :=
  [.applyStart "left", .commit "left", .applyStart "right", .commit "right"]

/-- A valid trace running `right` before `left`. -/
def traceRL : List Event :=
  [.applyStart "right", .commit "right", .applyStart "left", .commit "left"]

/-- A dependent pair: `child` depends on `base`. -/
def depPair : List Decl :=
  [ { name := "base", rtype := "t", inputs := [], refs := [] }
  , { name := "child", rtype := "t", inputs := [], refs := ["base"] } ]

/-- A valid trace of `depPair`. -/
def depTrace : List Event :=
  [.applyStart "base", .commit "base", .applyStart "child", .commit "child"]

/-- First disjoint subgraph: `s1leaf` depends on `s1root`. -/
def sub1 : List Decl :=
  [ { name := "s1root", rtype := "t", inputs := [], refs := [] }
  , { name := "s1leaf", rtype := "t", inputs := [], refs := ["s1root"] } ]

/-- Second disjoint subgraph: `s2leaf` depends on `s2root`. -/
def sub2 : List Decl :=
  [ { name := "s2root", rtype := "t", inputs := [], refs := [] }
  , { name := "s2leaf", rtype := "t", inputs := [], refs := ["s2root"] } ]

/-- Demo diff traits: every resource type supports in-place update of
`replicas` only. -/
def demoTraits : String → DiffTraits := fun _ => { supportsInPlaceUpdate := ["replicas"] }

end Engine

namespace FlaskApp

/-- A socket environment in which both lookups succeed. -/
def goodEnv : SocketEnv :=
  { gethostname := .ok "pod-1", gethostbyname := fun _ => .ok "10.0.0.7" }

/-- A socket environment in which the hostname lookup raises. -/
def badEnv : SocketEnv :=
  { gethostname := .error "gaierror", gethostbyname := fun _ => .error "gaierror" }

end FlaskApp

/-! ## Claim theorems -/

/-- C1, as stated, is false on the code: not every credential value the
programs produce, persist, or export is tagged as a Secret — the ACR registry
password stored in the Kubernetes pull secret of `IaC/__main__.py` is passed
to the secret's data without an `Output.secret` wrapper. -/
theorem secret_tagging_counterexample :
    ¬ (∀ o ∈ credentialOutputs, o.isSecret = true) := by
  decide

/-- C1 (amended): the AKS kubeconfig outputs of both programs are tagged as
Secrets via `Output.secret`, but the ACR registry password stored in the
Kubernetes pull secret is not tagged by the program. -/
theorem secret_tagging_amended :
    IaCProgram.kubeconfig.isSecret = true ∧
    AksAcrProgram.kubeconfig.isSecret = true ∧
    IaCProgram.pullSecretDockerconfig.isSecret = false ∧
    IaCProgram.pullSecretDockerconfig ∈ credentialOutputs := by
  decide

/-- C8: on every request to the root route, the `index` handler returns the
rendered `index.html` with the hostname and IP when both socket lookups
succeed, returns the rendered `error.html` when either lookup raises, and in
every environment returns one of those two rendered pages (it never
propagates an exception). -/
theorem flask_index_spec :
    (∀ (env : FlaskApp.SocketEnv) (h ip : String),
        env.gethostname = Except.ok h → env.gethostbyname h = Except.ok ip →
        FlaskApp.index env = .page "index.html" [("hostname", h), ("ip", ip)]) ∧
    (∀ (env : FlaskApp.SocketEnv) (e : String),
        env.gethostname = Except.error e →
        FlaskApp.index env = .page "error.html" []) ∧
    (∀ (env : FlaskApp.SocketEnv) (h e : String),
        env.gethostname = Except.ok h → env.gethostbyname h = Except.error e →
        FlaskApp.index env = .page "error.html" []) ∧
    (∀ env : FlaskApp.SocketEnv,
        (∃ ps, FlaskApp.index env = .page "index.html" ps) ∨
          FlaskApp.index env = .page "error.html" []) := by
  refine ⟨?_, ?_, ?_, ?_⟩
  · intro env h ip hh hip
    simp [FlaskApp.index, hh, hip]
  · intro env e he
    simp [FlaskApp.index, he]
  · intro env h e hh he
    simp [FlaskApp.index, hh, he]
  · intro env
    cases hh : env.gethostname with
    | error e => right; simp [FlaskApp.index, hh]
    | ok h =>
      cases hip : env.gethostbyname h with
      | error e => right; simp [FlaskApp.index, hh, hip]
      | ok ip =>
        left
        exact ⟨[("hostname", h), ("ip", ip)], by simp [FlaskApp.index, hh, hip]⟩

/-- Witness for C8: a concrete environment where both lookups succeed renders
`index.html` with the hostname and IP, and a concrete environment where the
hostname lookup raises renders `error.html`. -/
theorem flask_index_witness :
    FlaskApp.index FlaskApp.goodEnv
        = .page "index.html" [("hostname", "pod-1"), ("ip", "10.0.0.7")] ∧
    FlaskApp.index FlaskApp.badEnv = .page "error.html" [] :=
  ⟨flask_index_spec.1 FlaskApp.goodEnv "pod-1" "10.0.0.7" rfl rfl,
   flask_index_spec.2.1 FlaskApp.badEnv "gaierror" rfl⟩

/-- C9: the listening port is consistent end to end — the Flask app listens
on 8080, the deployment's container declares container port 8080, and the
LoadBalancer service forwards external port 80 to target port 8080. -/
theorem ports_consistent :
    FlaskApp.appRunPort = 8080 ∧
    IaCProgram.flaskContainerPorts.map IaCProgram.ContainerPortArgs.container_port
      = [FlaskApp.appRunPort] ∧
    IaCProgram.flaskServicePorts.map IaCProgram.ServicePortArgs.port = [80] ∧
    IaCProgram.flaskServicePorts.map IaCProgram.ServicePortArgs.target_port
      = [FlaskApp.appRunPort] := by
  decide

/-- C10: the role assignment granting registry pull access binds exactly the
created AKS cluster's kubelet identity as principal, and is scoped exactly to
the created registry's id — not to the resource group or the subscription. -/
theorem role_assignment_scope :
    AksAcrProgram.role_assignment.principal_id = AksAcrProgram.aksKubeletObjectId ∧
    AksAcrProgram.role_assignment.scope = AksAcrProgram.acrId ∧
    AksAcrProgram.role_assignment.scope ≠ AksAcrProgram.resourceGroupId ∧
    AksAcrProgram.role_assignment.scope ≠ AksAcrProgram.subscriptionScope := by
  decide

namespace Engine

/-- Closed form of the retry loop against an always-transient provider:
`n` attempts (for `n ≥ 1`), exponentially growing backoff delays, and a final
transient error. -/
lemma retry_transient_formula (base : Nat) :
    ∀ (n k : Nat), 1 ≤ n →
      retryExec alwaysTransient base k n =
        { attempts := n
        , delays := (List.range (n - 1)).map (fun i => base * 2 ^ (k + i))
        , result := .error .transient } := by
  intro n
  induction n with
  | zero => intro k h; omega
  | succ m ih =>
    intro k h
    cases m with
    | zero => simp [retryExec, alwaysTransient]
    | succ f =>
      have hrec := ih (k + 1) (by omega)
      have hdel : (List.range (f + 1 + 1 - 1)).map (fun i => base * 2 ^ (k + i))
          = base * 2 ^ k :: (List.range (f + 1 - 1)).map (fun i => base * 2 ^ (k + 1 + i)) := by
        rw [Nat.succ_sub_one, Nat.succ_sub_one, List.range_succ_eq_map, List.map_cons,
          List.map_map]
        simp only [Nat.add_zero]
        refine congrArg _ (List.map_congr_left (fun i _ => ?_))
        simp only [Function.comp_apply]
        rw [show k + Nat.succ i = k + 1 + i by omega]
      simp only [retryExec, alwaysTransient, hrec, hdel]

/-- C7: against a provider that always raises a transient error, the executor
makes exactly `n` attempts for the configured bound `n`, with non-decreasing
backoff delays, before marking the node failed; a non-transient provider
error marks the node failed after exactly one attempt, with no retry. -/
theorem retry_policy (base n : Nat) (hn : 1 ≤ n) :
    ((executeNode alwaysTransient base n).attempts = n ∧
      nodeFailed (executeNode alwaysTransient base n) = true ∧
      (executeNode alwaysTransient base n).delays.Pairwise (· ≤ ·)) ∧
    ((executeNode alwaysPermanent base n).attempts = 1 ∧
      nodeFailed (executeNode alwaysPermanent base n) = true ∧
      (executeNode alwaysPermanent base n).result = .error .permanent) := by
  have hf := retry_transient_formula base n 0 hn
  constructor
  · refine ⟨?_, ?_, ?_⟩
    · rw [executeNode, hf]
    · rw [nodeFailed, executeNode, hf]
    · rw [executeNode, hf]
      refine List.Pairwise.map _ ?_ (List.pairwise_lt_range _)
      intro a b hab
      exact Nat.mul_le_mul_left base (Nat.pow_le_pow_right (by omega) (by omega))
  · cases n with
    | zero => omega
    | succ m => exact ⟨rfl, rfl, rfl⟩

/-- Witness for C7: with backoff base 2 and attempt bound 3, the
always-transient provider stub is attempted exactly 3 times and the node is
marked failed; the non-transient provider stub fails after a single attempt. -/
theorem retry_policy_witness :
    (executeNode alwaysTransient 2 3).attempts = 3 ∧
    nodeFailed (executeNode alwaysTransient 2 3) = true ∧
    (executeNode alwaysPermanent 2 3).attempts = 1 :=
  ⟨(retry_policy 2 3 (by decide)).1.1, (retry_policy 2 3 (by decide)).1.2.1,
   (retry_policy 2 3 (by decide)).2.1⟩

end Engine

namespace Engine

/-- Validity of a concatenated trace splits into validity of the prefix and
validity of the suffix from the replayed status. -/
lemma validFrom_append (g : List Decl) :
    ∀ (xs ys : List Event) (st : String → RunStatus),
      validFrom g st (xs ++ ys) = (validFrom g st xs && validFrom g (replay st xs) ys) := by
  intro xs
  induction xs with
  | nil => intro ys st; simp [validFrom, replay]
  | cons e rest ih =>
    intro ys st
    cases e with
    | applyStart n => simp [validFrom, replay, ih, Bool.and_assoc]
    | commit n => simp [validFrom, replay, ih, Bool.and_assoc]

/-- A node can only be committed after replaying a trace if it was already
committed or the trace contains its commit event. -/
lemma replay_committed :
    ∀ (tr : List Event) (st : String → RunStatus) (b : String),
      replay st tr b = .committed → st b = .committed ∨ Event.commit b ∈ tr := by
  intro tr
  induction tr with
  | nil => intro st b h; exact Or.inl h
  | cons e rest ih =>
    intro st b h
    cases e with
    | applyStart n =>
      rcases ih _ b h with h' | h'
      · by_cases hbn : b = n
        · subst hbn; simp [upd] at h'
        · left; simpa [upd, hbn] using h'
      · right; exact List.mem_cons_of_mem _ h'
    | commit n =>
      rcases ih _ b h with h' | h'
      · by_cases hbn : b = n
        · subst hbn; right; exact List.mem_cons_self _ _
        · left; simpa [upd, hbn] using h'
      · right; exact List.mem_cons_of_mem _ h'

end Engine

namespace Engine

/-- C2: in every valid execution trace of the scheduler, whenever a node `a`
depends on a node `b`, the commit of `b`'s successful terminal state precedes
`a`'s apply-start event; and no ordering is imposed between independent
nodes — both interleavings of two independent nodes are valid traces. -/
theorem dependency_order :
    (∀ (g : List Decl) (tr pre suf : List Event) (a b : String),
        validTrace g tr = true →
        tr = pre ++ Event.applyStart a :: suf →
        b ∈ depsOf g a →
        Event.commit b ∈ pre) ∧
    (validTrace indepPair traceLR = true ∧ validTrace indepPair traceRL = true) := by
  constructor
  · intro g tr pre suf a b hval htr hdep
    subst htr
    rw [validTrace, validFrom_append] at hval
    have h2 := ((Bool.and_eq_true _ _).mp hval).2
    simp only [validFrom, Bool.and_eq_true, List.all_eq_true, decide_eq_true_eq] at h2
    have hb := h2.1.2 b hdep
    rcases replay_committed pre initStatus b hb with h | h
    · simp [initStatus] at h
    · exact h
  · decide

/-- Witness for C2: in the concrete valid trace of `depPair`, the commit of
`base` occurs in the part of the trace preceding `child`'s apply-start. -/
theorem dependency_order_witness :
    Event.commit "base" ∈ [Event.applyStart "base", Event.commit "base"] :=
  dependency_order.1 depPair depTrace [Event.applyStart "base", Event.commit "base"]
    [Event.commit "child"] "child" "base" (by decide) (by decide) (by decide)

end Engine

namespace Engine

/-- Running the executor over a concatenation processes the first part, then
the second from the accumulated report. -/
lemma execRun_append (failing : List String) :
    ∀ (xs ys : List Decl) (acc : List (String × Bool)),
      execRun failing acc (xs ++ ys) = execRun failing (execRun failing acc xs) ys := by
  intro xs
  induction xs with
  | nil => intro ys acc; simp [execRun]
  | cons d rest ih => intro ys acc; simp only [List.cons_append, execRun]; exact ih ys _

/-- The executor only appends entries, one per declaration, in order. -/
lemma execRun_shape (failing : List String) :
    ∀ (ds : List Decl) (acc : List (String × Bool)),
      ∃ tail, execRun failing acc ds = acc ++ tail ∧ tail.map Prod.fst = declNames ds := by
  intro ds
  induction ds with
  | nil => intro acc; exact ⟨[], by simp [execRun, declNames]⟩
  | cons d rest ih =>
    intro acc
    simp only [execRun]
    rcases ih (acc ++ [(d.name,
        decide (d.name ∉ failing)
          && d.refs.all (fun r => decide (lookupRes acc r = some true)))]) with ⟨tail, h1, h2⟩
    refine ⟨(d.name,
        decide (d.name ∉ failing)
          && d.refs.all (fun r => decide (lookupRes acc r = some true))) :: tail, ?_, ?_⟩
    · rw [h1, List.append_assoc]; rfl
    · simp only [List.map_cons, h2, declNames]

/-- `declNames` distributes over cons. -/
lemma declNames_cons (d : Decl) (ds : List Decl) :
    declNames (d :: ds) = d.name :: declNames ds := rfl

/-- Core containment lemma: a topologically ordered declaration list none of
whose nodes is failing, run from a report that mentions none of its names and
satisfies all its outer references, ends with every one of its nodes
succeeding. -/
lemma execRun_success (failing : List String) :
    ∀ (ds : List Decl) (acc : List (String × Bool)) (seen : List String),
      topoOkFrom seen ds = true →
      (∀ n ∈ declNames ds, acc.find? (fun e => decide (e.1 = n)) = none) →
      (∀ r ∈ seen, lookupRes acc r = some true) →
      (∀ n ∈ declNames ds, n ∉ failing) →
      (declNames ds).Nodup →
      ∀ d ∈ ds, lookupRes (execRun failing acc ds) d.name = some true := by
  intro ds
  induction ds with
  | nil => intro acc seen _ _ _ _ _ d hd; cases hd
  | cons d0 rest ih =>
    intro acc seen htopo hfresh hseen hfail hnd d hd
    rw [topoOkFrom, Bool.and_eq_true] at htopo
    obtain ⟨hrefs0, hrest⟩ := htopo
    have hd0name : d0.name ∈ declNames (d0 :: rest) := by
      rw [declNames_cons]; exact List.mem_cons_self _ _
    have hok : (decide (d0.name ∉ failing)
        && d0.refs.all (fun r => decide (lookupRes acc r = some true))) = true := by
      rw [Bool.and_eq_true]
      refine ⟨decide_eq_true (hfail d0.name hd0name), ?_⟩
      rw [List.all_eq_true] at hrefs0 ⊢
      intro r hr
      exact decide_eq_true (hseen r (of_decide_eq_true (hrefs0 r hr)))
    have hnotmem : d0.name ∉ declNames rest := (List.nodup_cons.mp hnd).1
    have hfresh' : ∀ n ∈ declNames rest,
        (acc ++ [(d0.name, true)]).find? (fun e => decide (e.1 = n)) = none := by
      intro n hn
      rw [List.find?_append, hfresh n (by rw [declNames_cons]; exact List.mem_cons_of_mem _ hn)]
      have : d0.name ≠ n := fun h => hnotmem (h ▸ hn)
      simp [List.find?, this]
    have hseen' : ∀ r ∈ seen ++ [d0.name], lookupRes (acc ++ [(d0.name, true)]) r = some true := by
      intro r hr
      rcases List.mem_append.mp hr with hr | hr
      · have := hseen r hr
        rw [lookupRes] at this ⊢
        rw [List.find?_append]
        cases hfa : acc.find? (fun e => decide (e.1 = r)) with
        | none => rw [hfa] at this; simp at this
        | some e => rw [hfa] at this; simpa using this
      · have hr' : r = d0.name := by simpa using hr
        subst hr'
        rw [lookupRes, List.find?_append, hfresh d0.name hd0name]
        simp [List.find?]
    have hfail' : ∀ n ∈ declNames rest, n ∉ failing := fun n hn =>
      hfail n (by rw [declNames_cons]; exact List.mem_cons_of_mem _ hn)
    have hnd' : (declNames rest).Nodup := (List.nodup_cons.mp hnd).2
    simp only [execRun]
    rw [hok]
    rcases List.mem_cons.mp hd with hd | hd
    · subst hd
      rcases execRun_shape failing rest (acc ++ [(d.name, true)]) with ⟨tail, hsh, hnames⟩
      rw [hsh, lookupRes, List.append_assoc, List.find?_append, List.find?_append,
        hfresh d.name hd0name]
      have htail : tail.find? (fun e => decide (e.1 = d.name)) = none := by
        rw [List.find?_eq_none]
        intro x hx
        have : x.1 ∈ declNames rest := by rw [← hnames]; exact List.mem_map_of_mem _ hx
        simp only [decide_eq_true_eq]
        intro hxe
        exact hnotmem (hxe ▸ this)
      simp [List.find?, htail]
    · exact ih (acc ++ [(d0.name, true)]) (seen ++ [d0.name]) hrest hfresh' hseen' hfail' hnd' d hd

/-- C6: under the default failure policy, a deterministic failure of one node
stays inside its own subgraph — for a graph made of two disjoint subgraphs
where a node of the first is made to fail, every node of the second still
reaches a terminal success state. -/
theorem failure_containment (g1 g2 : List Decl) (f : String)
    (hnd : (declNames (g1 ++ g2)).Nodup)
    (hf : f ∈ declNames g1)
    (hord : topoOkFrom [] g2 = true) :
    ∀ d ∈ g2, lookupRes (execRun [f] [] (g1 ++ g2)) d.name = some true := by
  have happ : declNames (g1 ++ g2) = declNames g1 ++ declNames g2 := by
    simp [declNames]
  rw [happ, List.nodup_append] at hnd
  have hdisj : ∀ n ∈ declNames g2, n ∉ declNames g1 := fun n hn hng1 => hnd.2.2 hng1 hn
  rw [execRun_append]
  rcases execRun_shape [f] g1 [] with ⟨tail, hsh, hnames⟩
  apply execRun_success [f] g2 (execRun [f] [] g1) [] hord
  · intro n hn
    rw [hsh, List.nil_append, List.find?_eq_none]
    intro x hx
    have hx1 : x.1 ∈ declNames g1 := by rw [← hnames]; exact List.mem_map_of_mem _ hx
    simp only [decide_eq_true_eq]
    intro hxe
    exact hdisj n hn (hxe ▸ hx1)
  · intro r hr; cases hr
  · intro n hn
    have : n ≠ f := fun h => hdisj n hn (h ▸ hf)
    simp [this]
  · exact hnd.2.1

/-- Witness for C6: with `s1root` made to fail in the first subgraph, both
nodes of the disjoint second subgraph succeed, while the failing node and its
dependent fail. -/
theorem failure_containment_witness :
    lookupRes (execRun ["s1root"] [] (sub1 ++ sub2)) "s2root" = some true ∧
    lookupRes (execRun ["s1root"] [] (sub1 ++ sub2)) "s2leaf" = some true ∧
    lookupRes (execRun ["s1root"] [] (sub1 ++ sub2)) "s1root" = some false ∧
    lookupRes (execRun ["s1root"] [] (sub1 ++ sub2)) "s1leaf" = some false :=
  ⟨failure_containment sub1 sub2 "s1root" (by decide) (by decide) (by decide)
      { name := "s2root", rtype := "t", inputs := [], refs := [] } (by decide),
   failure_containment sub1 sub2 "s1root" (by decide) (by decide) (by decide)
      { name := "s2leaf", rtype := "t", inputs := [], refs := ["s2root"] } (by decide),
   by decide, by decide⟩

end Engine

namespace Engine

/-- C4: the Diff Engine's classification is exactly the specified one — no
prior record yields `create`; a prior record with unchanged inputs yields
`unchanged`, and an unchanged plan entry contributes no provider call;
changed inputs yield `update` when the provider supports in-place update for
every changed field and `replace` when some changed field is unsupported; a
name present in the State Store but absent from the current graph receives a
`delete` plan entry. -/
theorem diff_classification :
    (∀ (traits : DiffTraits) (desired : List (String × String)),
        diffOne traits desired none = .create) ∧
    (∀ (traits : DiffTraits) (desired : List (String × String)) (r : StateRecord),
        changedFields desired r.inputs = [] →
        diffOne traits desired (some r) = .unchanged) ∧
    (∀ (pre suf : List PlanEntry) (n : String),
        callsOfPlan (pre ++ { name := n, action := .unchanged } :: suf)
          = callsOfPlan (pre ++ suf)) ∧
    (∀ (traits : DiffTraits) (desired : List (String × String)) (r : StateRecord),
        changedFields desired r.inputs ≠ [] →
        (∀ f ∈ changedFields desired r.inputs, f ∈ traits.supportsInPlaceUpdate) →
        diffOne traits desired (some r) = .update) ∧
    (∀ (traits : DiffTraits) (desired : List (String × String)) (r : StateRecord)
        (f : String), f ∈ changedFields desired r.inputs →
        f ∉ traits.supportsInPlaceUpdate →
        diffOne traits desired (some r) = .replace) ∧
    (∀ (traitsOf : String → DiffTraits) (decls : List Decl)
        (store : List (String × StateRecord)) (n : String) (r : StateRecord),
        (n, r) ∈ store → n ∉ declNames decls →
        { name := n, action := Action.delete } ∈ planOf traitsOf decls store) := by
  refine ⟨?_, ?_, ?_, ?_, ?_, ?_⟩
  · intro traits desired; rfl
  · intro traits desired r h
    simp [diffOne, h]
  · intro pre suf n
    simp [callsOfPlan, List.filterMap_append, List.filterMap_cons, callOfEntry]
  · intro traits desired r hne hall
    have hall' : (changedFields desired r.inputs).all
        (fun f => decide (f ∈ traits.supportsInPlaceUpdate)) = true := by
      rw [List.all_eq_true]
      intro f hf
      exact decide_eq_true (hall f hf)
    simp [diffOne, hne, hall']
  · intro traits desired r f hf hnot
    have hne : changedFields desired r.inputs ≠ [] := List.ne_nil_of_mem hf
    have hall' : (changedFields desired r.inputs).all
        (fun g => decide (g ∈ traits.supportsInPlaceUpdate)) = false := by
      rw [Bool.eq_false_iff]
      intro hcontra
      rw [List.all_eq_true] at hcontra
      exact hnot (of_decide_eq_true (hcontra f hf))
    simp [diffOne, hne, hall']
  · intro traitsOf decls store n r hmem hnot
    rw [planOf, List.mem_append]
    right
    rw [List.mem_map]
    refine ⟨(n, r), ?_, rfl⟩
    rw [List.mem_filter]
    exact ⟨hmem, decide_eq_true hnot⟩

/-- Witness for C4: each classification case evaluated on concrete inputs —
a fresh node creates, identical inputs are unchanged with no call, a changed
updatable field updates, a changed non-updatable field replaces, and an
orphaned store entry is planned for deletion. -/
theorem diff_classification_witness :
    diffOne (demoTraits "t") [("replicas", "2")] none = .create ∧
    diffOne (demoTraits "t") [("replicas", "2")]
        (some { inputs := [("replicas", "2")], outputs := [], providerId := "x" }) = .unchanged ∧
    callsOfPlan [{ name := "a", action := .unchanged }] = [] ∧
    diffOne (demoTraits "t") [("replicas", "3")]
        (some { inputs := [("replicas", "2")], outputs := [], providerId := "x" }) = .update ∧
    diffOne (demoTraits "t") [("region", "west")]
        (some { inputs := [("region", "east")], outputs := [], providerId := "x" }) = .replace ∧
    { name := "gone", action := Action.delete } ∈
      planOf demoTraits [] [("gone", { inputs := [], outputs := [], providerId := "g" })] :=
  ⟨diff_classification.1 _ _,
   diff_classification.2.1 _ _ _ (by decide),
   diff_classification.2.2.1 [] [] "a",
   diff_classification.2.2.2.1 _ _ _ (by decide) (by decide),
   diff_classification.2.2.2.2.1 _ _ _ "region" (by decide) (by decide),
   diff_classification.2.2.2.2.2 demoTraits [] _ "gone"
     { inputs := [], outputs := [], providerId := "g" } (by decide) (by decide)⟩

/-- Looking up a key in a property map with distinct keys finds its value. -/
lemma lookupProp_self :
    ∀ (x : List (String × String)), (x.map Prod.fst).Nodup →
      ∀ kv ∈ x, lookupProp x kv.1 = some kv.2 := by
  intro x
  induction x with
  | nil => intro _ kv hkv; cases hkv
  | cons p rest ih =>
    intro hnd kv hkv
    rcases List.mem_cons.mp hkv with h | h
    · subst h
      simp [lookupProp, List.find?]
    · have hp : p.1 ∉ rest.map Prod.fst := (List.nodup_cons.mp (by simpa using hnd)).1
      have hne : p.1 ≠ kv.1 := fun he => hp (he ▸ List.mem_map_of_mem _ h)
      rw [lookupProp, List.find?]
      simp only [hne, decide_eq_true_eq, decide_eq_false_iff_not, if_neg]
      exact ih (List.nodup_cons.mp (by simpa using hnd)).2 kv h

/-- A property map with distinct keys has no changed fields against itself. -/
lemma changedFields_self (x : List (String × String)) (hk : (x.map Prod.fst).Nodup) :
    changedFields x x = [] := by
  rw [changedFields]
  have h1 : x.filter (fun kv => decide (lookupProp x kv.1 ≠ some kv.2)) = [] := by
    rw [List.filter_eq_nil_iff]
    intro kv hkv
    simp only [decide_eq_true_eq, ne_eq, not_not]
    exact lookupProp_self x hk kv hkv
  have h2 : x.filter (fun kv => decide (lookupProp x kv.1 = none)) = [] := by
    rw [List.filter_eq_nil_iff]
    intro kv hkv
    simp only [decide_eq_true_eq]
    intro hcon
    rw [lookupProp_self x hk kv hkv] at hcon
    cases hcon
  rw [h1, h2]
  rfl

/-- In a store keyed by distinct declaration names, each declaration finds
exactly its own committed record. -/
lemma lookupRec_map_decls (f : Decl → StateRecord) :
    ∀ (decls : List Decl), (declNames decls).Nodup →
      ∀ d ∈ decls, lookupRec (decls.map (fun d => (d.name, f d))) d.name = some (f d) := by
  intro decls
  induction decls with
  | nil => intro _ d hd; cases hd
  | cons d0 rest ih =>
    intro hnd d hd
    rcases List.mem_cons.mp hd with h | h
    · subst h
      simp [lookupRec, List.find?]
    · have h0 : d0.name ∉ declNames rest := (List.nodup_cons.mp (by rwa [declNames_cons] at hnd)).1
      have hne : d0.name ≠ d.name := fun he => h0 (he ▸ List.mem_map_of_mem _ h)
      rw [List.map_cons, lookupRec, List.find?]
      simp only [hne, decide_eq_true_eq, decide_eq_false_iff_not, if_neg]
      exact ih (List.nodup_cons.mp (by rwa [declNames_cons] at hnd)).2 d h

/-- C3: running the engine a second time with unchanged declarations performs
zero provider create, update, or delete calls, leaves the State Store
untouched, and classifies every node `unchanged`. -/
theorem second_run_idempotent (traitsOf : String → DiffTraits) (decls : List Decl)
    (store : List (String × StateRecord))
    (hnd : (declNames decls).Nodup)
    (hkeys : ∀ d ∈ decls, (d.inputs.map Prod.fst).Nodup) :
    (runEngine traitsOf decls (runEngine traitsOf decls store).2).1 = [] ∧
    (runEngine traitsOf decls (runEngine traitsOf decls store).2).2
      = (runEngine traitsOf decls store).2 ∧
    ∀ e ∈ planOf traitsOf decls (runEngine traitsOf decls store).2,
      e.action = .unchanged := by
  have hlook : ∀ d ∈ decls, lookupRec (newStore decls store) d.name = some (commitRec store d) :=
    lookupRec_map_decls (commitRec store) decls hnd
  have hch : ∀ d ∈ decls, changedFields d.inputs (commitRec store d).inputs = [] := by
    intro d hd
    rw [commitRec]
    cases hl : lookupRec store d.name with
    | none => exact changedFields_self _ (hkeys d hd)
    | some r =>
      by_cases hempty : (changedFields d.inputs r.inputs).isEmpty = true
      · simp only [if_pos hempty]
        exact List.isEmpty_iff.mp hempty
      · simp only [if_neg hempty]
        exact changedFields_self _ (hkeys d hd)
  have hdiff : ∀ d ∈ decls,
      diffOne (traitsOf d.rtype) d.inputs (lookupRec (newStore decls store) d.name)
        = .unchanged := by
    intro d hd
    rw [hlook d hd]
    simp [diffOne, hch d hd]
  have hdel : (newStore decls store).filter (fun e => decide (e.1 ∉ declNames decls)) = [] := by
    rw [List.filter_eq_nil_iff]
    intro e he
    rcases List.mem_map.mp he with ⟨d, hd, hde⟩
    subst hde
    simp only [decide_eq_true_eq, not_not]
    exact List.mem_map_of_mem _ hd
  have hactions : ∀ e ∈ planOf traitsOf decls (newStore decls store),
      e.action = .unchanged := by
    intro e he
    rw [planOf] at he
    rcases List.mem_append.mp he with h | h
    · rcases List.mem_map.mp h with ⟨d, hd, hde⟩
      subst hde
      exact hdiff d hd
    · rw [hdel, List.map_nil] at h
      cases h
  refine ⟨?_, ?_, hactions⟩
  · show callsOfPlan (planOf traitsOf decls (newStore decls store)) = []
    rw [callsOfPlan, List.filterMap_eq_nil_iff]
    intro e he
    have ha := hactions e he
    rw [callOfEntry, ha]
  · have hcommit : ∀ d ∈ decls, commitRec (newStore decls store) d = commitRec store d := by
      intro d hd
      rw [commitRec, hlook d hd]
      simp [hch d hd]
    show newStore decls (newStore decls store) = newStore decls store
    calc newStore decls (newStore decls store)
        = decls.map (fun d => (d.name, commitRec (newStore decls store) d)) := rfl
      _ = decls.map (fun d => (d.name, commitRec store d)) :=
          List.map_congr_left (fun d hd => by rw [hcommit d hd])
      _ = newStore decls store := rfl

/-- Witness for C3: running the engine on the IaC program's declarations from
an empty store and then again on the resulting store performs zero provider
calls and leaves the store unchanged. -/
theorem second_run_idempotent_witness :
    (runEngine demoTraits iacDecls (runEngine demoTraits iacDecls []).2).1 = [] ∧
    (runEngine demoTraits iacDecls (runEngine demoTraits iacDecls []).2).2
      = (runEngine demoTraits iacDecls []).2 :=
  ⟨(second_run_idempotent demoTraits iacDecls [] (by decide) (by decide)).1,
   (second_run_idempotent demoTraits iacDecls [] (by decide) (by decide)).2.1⟩

end Engine

namespace Engine

/-- `firstDup` finds nothing exactly on duplicate-free lists. -/
lemma firstDup_eq_none :
    ∀ (l : List String), firstDup l = none ↔ l.Nodup := by
  intro l
  induction l with
  | nil => simp [firstDup]
  | cons n rest ih =>
    rw [firstDup]
    by_cases h : n ∈ rest
    · simp [h]
    · simp [h, ih]

/-- `findDangling` finds nothing exactly when every reference is declared. -/
lemma findDangling_eq_none (names : List String) :
    ∀ (ds : List Decl), findDangling names ds = none ↔
      ∀ d ∈ ds, ∀ r ∈ d.refs, r ∈ names := by
  intro ds
  induction ds with
  | nil => simp [findDangling]
  | cons d rest ih =>
    rw [findDangling]
    cases hf : d.refs.find? (fun r => decide (r ∉ names)) with
    | some r =>
      simp only []
      constructor
      · intro hcon; cases hcon
      · intro hall
        have hdec := List.find?_some hf
        have hrmem := List.mem_of_find?_eq_some hf
        exact absurd (hall d (List.mem_cons_self _ _) r hrmem) (of_decide_eq_true hdec)
    | none =>
      simp only []
      rw [List.find?_eq_none] at hf
      constructor
      · intro hrest d' hd' r hr
        rcases List.mem_cons.mp hd' with h | h
        · subst h
          by_contra hnot
          exact (hf r hr) (decide_eq_true hnot)
        · exact (ih.mp hrest) d' h r hr
      · intro hall
        exact ih.mpr (fun d' hd' r hr => hall d' (List.mem_cons_of_mem _ hd') r hr)

/-- A successful pick returns a pending declaration whose references are all
placed, and the rest is the pending list minus that declaration. -/
lemma pickReady_some (placed : List String) :
    ∀ (ds : List Decl) (d : Decl) (rest : List Decl),
      pickReady placed ds = some (d, rest) →
      ds.Perm (d :: rest) ∧ (∀ r ∈ d.refs, r ∈ placed) := by
  intro ds
  induction ds with
  | nil => intro d rest h; cases h
  | cons d0 ds0 ih =>
    intro d rest h
    rw [pickReady] at h
    by_cases hready : d0.refs.all (fun r => decide (r ∈ placed)) = true
    · rw [if_pos hready] at h
      cases h
      refine ⟨List.Perm.refl _, ?_⟩
      intro r hr
      exact of_decide_eq_true ((List.all_eq_true.mp hready) r hr)
    · rw [if_neg hready] at h
      cases hrec : pickReady placed ds0 with
      | none => rw [hrec] at h; cases h
      | some pr =>
        rcases pr with ⟨e, es⟩
        rw [hrec] at h
        cases h
        rcases ih d es hrec with ⟨hperm, hrefs⟩
        exact ⟨(hperm.cons d0).trans (List.Perm.swap d d0 es), hrefs⟩

/-- When nothing is ready, every pending declaration has an unplaced
reference. -/
lemma pickReady_none (placed : List String) :
    ∀ (ds : List Decl), pickReady placed ds = none →
      ∀ d ∈ ds, ∃ r ∈ d.refs, r ∉ placed := by
  intro ds
  induction ds with
  | nil => intro _ d hd; cases hd
  | cons d0 ds0 ih =>
    intro h d hd
    rw [pickReady] at h
    by_cases hready : d0.refs.all (fun r => decide (r ∈ placed)) = true
    · rw [if_pos hready] at h; cases h
    · rw [if_neg hready] at h
      cases hrec : pickReady placed ds0 with
      | some pr => rcases pr with ⟨e, es⟩; rw [hrec] at h; cases h
      | none =>
        rcases List.mem_cons.mp hd with hh | hh
        · subst hh
          rw [List.all_eq_true] at hready
          push_neg at hready
          rcases hready with ⟨r, hr, hdec⟩
          exact ⟨r, hr, fun hmem => hdec (decide_eq_true hmem)⟩
        · exact ih hrec d hh

/-- Splitting a topological-order check over an append. -/
lemma topoOkFrom_append :
    ∀ (xs ys : List Decl) (seen : List String),
      topoOkFrom seen (xs ++ ys)
        = (topoOkFrom seen xs && topoOkFrom (seen ++ declNames xs) ys) := by
  intro xs
  induction xs with
  | nil => intro ys seen; simp [topoOkFrom, declNames]
  | cons d rest ih =>
    intro ys seen
    rw [List.cons_append, topoOkFrom, topoOkFrom, ih, Bool.and_assoc, declNames_cons]
    simp [List.append_assoc]

/-- Pigeonhole: a finite nonempty set in which every element has a successor
inside the set contains a relation cycle. -/
lemma cyclic_of_succ (S : Finset String) (hne : S.Nonempty)
    (rel : String → String → Prop)
    (hsucc : ∀ a ∈ S, ∃ b ∈ S, rel a b) :
    ∃ a ∈ S, Relation.TransGen rel a a := by
  classical
  have hsucc' : ∀ a, ∃ b, a ∈ S → b ∈ S ∧ rel a b := by
    intro a
    by_cases ha : a ∈ S
    · rcases hsucc a ha with ⟨b, hb, hr⟩
      exact ⟨b, fun _ => ⟨hb, hr⟩⟩
    · exact ⟨a, fun h => absurd h ha⟩
  choose g hg using hsucc'
  rcases hne with ⟨a0, ha0⟩
  have hiterS : ∀ (a : String), a ∈ S → ∀ n, g^[n] a ∈ S := by
    intro a ha n
    induction n with
    | zero => simpa using ha
    | succ m ihm =>
      rw [Function.iterate_succ_apply']
      exact (hg _ ihm).1
  have hstep : ∀ (a : String), a ∈ S → ∀ m, Relation.TransGen rel a (g^[m + 1] a) := by
    intro a ha m
    induction m with
    | zero => simpa using Relation.TransGen.single (hg a ha).2
    | succ p ihp =>
      rw [Function.iterate_succ_apply']
      exact Relation.TransGen.tail ihp (hg _ (hiterS a ha (p + 1))).2
  have hcard : S.card < (Finset.univ : Finset (Fin (S.card + 1))).card := by
    simp
  have hmaps : ∀ i : Fin (S.card + 1),
      i ∈ (Finset.univ : Finset (Fin (S.card + 1))) → g^[i.val] a0 ∈ S :=
    fun i _ => hiterS a0 ha0 i.val
  rcases Finset.exists_ne_map_eq_of_card_lt_of_maps_to hcard hmaps with ⟨i, _, j, _, hij, heq⟩
  have key : ∀ (i j : Fin (S.card + 1)), i.val < j.val →
      g^[i.val] a0 = g^[j.val] a0 → ∃ a ∈ S, Relation.TransGen rel a a := by
    intro i j hlt he
    have haS : g^[i.val] a0 ∈ S := hiterS a0 ha0 i.val
    have hj : g^[j.val] a0 = g^[j.val - i.val] (g^[i.val] a0) := by
      rw [← Function.iterate_add_apply, show j.val - i.val + i.val = j.val by omega]
    have hcyc := hstep (g^[i.val] a0) haS (j.val - i.val - 1)
    rw [show j.val - i.val - 1 + 1 = j.val - i.val by omega, ← hj, ← he] at hcyc
    exact ⟨g^[i.val] a0, haS, hcyc⟩
  rcases lt_or_gt_of_ne (fun h : i.val = j.val => hij (Fin.ext h)) with hlt | hlt
  · exact key i j hlt heq
  · exact key j i hlt heq.symm

/-- The source node of a dependency edge is a declared name. -/
lemma edgeOf_mem (ds : List Decl) (a b : String) (h : edgeOf ds a b) : a ∈ declNames ds := by
  rcases h with ⟨d, hd, hname, _⟩
  exact hname ▸ List.mem_map_of_mem _ hd

/-- Any node lying on a dependency cycle is a declared name. -/
lemma cyclic_mem (ds : List Decl) (a : String) (h : Relation.TransGen (edgeOf ds) a a) :
    a ∈ declNames ds := by
  rcases Relation.TransGen.head'_iff.mp h with ⟨b, hab, _⟩
  exact edgeOf_mem ds a b hab

/-- With duplicate-free names, equal names identify equal declarations. -/
lemma decl_name_inj (ds : List Decl) (hnd : (declNames ds).Nodup)
    {x y : Decl} (hx : x ∈ ds) (hy : y ∈ ds) (hname : x.name = y.name) : x = y :=
  List.inj_on_of_nodup_map hnd hx hy hname

/-- Main invariant of the topological walk: from any reachable intermediate
state it either completes with a valid topological order of an acyclic graph,
or stops reporting a cycle, naming every node that lies on any cycle. -/
lemma topoAux_spec (ds : List Decl)
    (hnd : (declNames ds).Nodup)
    (href : ∀ d ∈ ds, ∀ r ∈ d.refs, r ∈ declNames ds) :
    ∀ (fuel : Nat) (placed pending : List Decl),
      pending.length ≤ fuel →
      (placed ++ pending).Perm ds →
      topoOkFrom [] placed = true →
      (∀ a, Relation.TransGen (edgeOf ds) a a → a ∈ declNames pending) →
      (∃ order, topoAux fuel placed pending = .ok order ∧ order.Perm ds ∧
          topoOkFrom [] order = true ∧ ¬ Cyclic ds) ∨
      (∃ path, topoAux fuel placed pending = .error (.cycle path) ∧ Cyclic ds ∧
          ∀ a, Relation.TransGen (edgeOf ds) a a → a ∈ path) := by
  intro fuel
  induction fuel with
  | zero =>
    intro placed pending hlen hperm hok hcyc
    have hpend : pending = [] := List.length_eq_zero.mp (Nat.le_zero.mp hlen)
    subst hpend
    left
    refine ⟨placed, rfl, by simpa using hperm, hok, ?_⟩
    rintro ⟨a, ha⟩
    exact absurd (hcyc a ha) (by simp [declNames])
  | succ n ih =>
    intro placed pending hlen hperm hok hcyc
    cases pending with
    | nil =>
      left
      refine ⟨placed, rfl, by simpa using hperm, hok, ?_⟩
      rintro ⟨a, ha⟩
      exact absurd (hcyc a ha) (by simp [declNames])
    | cons p ps =>
      have hnames : (declNames placed ++ declNames (p :: ps)).Nodup := by
        have hmapperm : (declNames (placed ++ (p :: ps))).Perm (declNames ds) :=
          hperm.map Decl.name
        have hsplit : declNames (placed ++ (p :: ps))
            = declNames placed ++ declNames (p :: ps) := by simp [declNames]
        rw [hsplit] at hmapperm
        exact (hmapperm.nodup_iff).mpr hnd
      have hdisj : List.Disjoint (declNames placed) (declNames (p :: ps)) :=
        (List.nodup_append.mp hnames).2.2
      cases hpick : pickReady (declNames placed) (p :: ps) with
      | some dr =>
        rcases dr with ⟨d, rest⟩
        rcases pickReady_some (declNames placed) (p :: ps) d rest hpick with ⟨hpperm, hrefs⟩
        have hstep : topoAux (n + 1) placed (p :: ps) = topoAux n (placed ++ [d]) rest := by
          rw [topoAux, hpick]
        rw [hstep]
        have hdmem : d ∈ ds := hperm.subset
          (List.mem_append_right placed (hpperm.symm.subset (List.mem_cons_self d rest)))
        apply ih
        · have hle := hpperm.length_eq
          simp only [List.length_cons] at hle hlen
          omega
        · rw [List.append_assoc]
          exact (List.Perm.append_left placed hpperm).symm.trans hperm
        · rw [topoOkFrom_append, Bool.and_eq_true]
          refine ⟨hok, ?_⟩
          rw [topoOkFrom, topoOkFrom, Bool.and_eq_true]
          refine ⟨?_, rfl⟩
          rw [List.all_eq_true]
          intro r hr
          exact decide_eq_true (by simpa using hrefs r hr)
        · intro a ha
          have hmem : a ∈ declNames (p :: ps) := hcyc a ha
          have hmem' : a ∈ declNames (d :: rest) := ((hpperm.map Decl.name).mem_iff).mp hmem
          rw [declNames_cons] at hmem'
          rcases List.mem_cons.mp hmem' with he | he
          · exfalso
            subst he
            rcases Relation.TransGen.head'_iff.mp ha with ⟨b, hab, hba⟩
            have hbcyc : Relation.TransGen (edgeOf ds) b b :=
              Relation.TransGen.trans_right hba (Relation.TransGen.single hab)
            rcases hab with ⟨d', hd', hdname, hbref⟩
            have hd'd : d' = d := decl_name_inj ds hnd hd' hdmem hdname
            have hbplaced : b ∈ declNames placed := hrefs b (by rw [← hd'd]; exact hbref)
            have hbpend : b ∈ declNames (p :: ps) := hcyc b hbcyc
            exact hdisj hbplaced hbpend
          · exact he
      | none =>
        right
        refine ⟨declNames (p :: ps), by rw [topoAux, hpick], ?_, hcyc⟩
        have hstuck := pickReady_none (declNames placed) (p :: ps) hpick
        have hne : ((declNames (p :: ps)).toFinset : Finset String).Nonempty := by
          refine ⟨p.name, ?_⟩
          rw [List.mem_toFinset, declNames_cons]
          exact List.mem_cons_self _ _
        have hsucc : ∀ a ∈ (declNames (p :: ps)).toFinset,
            ∃ b ∈ (declNames (p :: ps)).toFinset, edgeOf ds a b := by
          intro a haS
          rw [List.mem_toFinset] at haS
          rcases List.mem_map.mp haS with ⟨d', hd', hdname⟩
          rcases hstuck d' hd' with ⟨r, hr, hrnp⟩
          have hd'ds : d' ∈ ds := hperm.subset (List.mem_append_right placed hd')
          have hrds : r ∈ declNames ds := href d' hd'ds r hr
          have hrsplit : r ∈ declNames placed ++ declNames (p :: ps) := by
            have hmapperm : (declNames (placed ++ (p :: ps))).Perm (declNames ds) :=
              hperm.map Decl.name
            have hsplit : declNames (placed ++ (p :: ps))
                = declNames placed ++ declNames (p :: ps) := by simp [declNames]
            rw [hsplit] at hmapperm
            exact hmapperm.mem_iff.mpr hrds
          have hrpend : r ∈ declNames (p :: ps) := by
            rcases List.mem_append.mp hrsplit with h | h
            · exact absurd h hrnp
            · exact h
          refine ⟨r, List.mem_toFinset.mpr hrpend, ?_⟩
          exact ⟨d', hd'ds, hdname, hr⟩
        rcases cyclic_of_succ _ hne (edgeOf ds) hsucc with ⟨a, _, ha⟩
        exact ⟨a, ha⟩

/-- On well-formed inputs the Graph Builder either succeeds with a valid
topological order of an acyclic graph or reports a cycle naming every node on
any cycle. -/
lemma buildGraph_cases (ds : List Decl)
    (hnd : (declNames ds).Nodup)
    (href : ∀ d ∈ ds, ∀ r ∈ d.refs, r ∈ declNames ds) :
    (∃ order, buildGraph ds = .ok order ∧ order.Perm ds ∧ topoOkFrom [] order = true
        ∧ ¬ Cyclic ds) ∨
    (∃ path, buildGraph ds = .error (.cycle path) ∧ Cyclic ds ∧
        ∀ a, Relation.TransGen (edgeOf ds) a a → a ∈ path) := by
  have hdup : firstDup (declNames ds) = none := (firstDup_eq_none _).mpr hnd
  have hdang : findDangling (declNames ds) ds = none := (findDangling_eq_none _ ds).mpr href
  have hbg : buildGraph ds = topoAux ds.length [] ds := by
    rw [buildGraph, hdup, hdang]
  rw [hbg]
  apply topoAux_spec ds hnd href ds.length [] ds
  · exact Nat.le_refl _
  · simp
  · rfl
  · exact fun a ha => cyclic_mem ds a ha

/-- A graph the Builder accepts has no dependency cycle. -/
lemma not_cyclic_of_buildGraph_ok (ds : List Decl) (order : List Decl)
    (hnd : (declNames ds).Nodup)
    (href : ∀ d ∈ ds, ∀ r ∈ d.refs, r ∈ declNames ds)
    (hok : buildGraph ds = .ok order) : ¬ Cyclic ds := by
  rcases buildGraph_cases ds hnd href with ⟨o, ho, _, _, hnc⟩ | ⟨p, hp, _, _⟩
  · exact hnc
  · rw [hok] at hp; cases hp

/-- C5: the Graph Builder fails with a `GraphError` on duplicate logical
names, on references to undeclared resources, and on dependency cycles
(naming every node on any cycle); for every acyclic well-formed input it
produces a valid topological ordering; and the two front-end programs'
declaration lists build successfully. -/
theorem graph_builder_spec :
    (∀ ds : List Decl, ¬ (declNames ds).Nodup →
        ∃ n, buildGraph ds = .error (.duplicateName n)) ∧
    (∀ ds : List Decl, (declNames ds).Nodup →
        (∃ d ∈ ds, ∃ r ∈ d.refs, r ∉ declNames ds) →
        ∃ a b, buildGraph ds = .error (.danglingRef a b)) ∧
    (∀ ds : List Decl, (declNames ds).Nodup →
        (∀ d ∈ ds, ∀ r ∈ d.refs, r ∈ declNames ds) → Cyclic ds →
        ∃ path, buildGraph ds = .error (.cycle path) ∧
          ∀ a, Relation.TransGen (edgeOf ds) a a → a ∈ path) ∧
    (∀ ds : List Decl, (declNames ds).Nodup →
        (∀ d ∈ ds, ∀ r ∈ d.refs, r ∈ declNames ds) → ¬ Cyclic ds →
        ∃ order, buildGraph ds = .ok order ∧ order.Perm ds ∧ topoOkFrom [] order = true) ∧
    (buildGraph iacDecls = .ok iacDecls ∧ buildGraph aksAcrDecls = .ok aksAcrDecls) := by
  refine ⟨?_, ?_, ?_, ?_, rfl, rfl⟩
  · intro ds h
    cases hf : firstDup (declNames ds) with
    | none => exact absurd ((firstDup_eq_none _).mp hf) h
    | some n => exact ⟨n, by rw [buildGraph, hf]⟩
  · intro ds hnd hdang
    have hdup : firstDup (declNames ds) = none := (firstDup_eq_none _).mpr hnd
    cases hf : findDangling (declNames ds) ds with
    | none =>
      rw [findDangling_eq_none] at hf
      rcases hdang with ⟨d, hd, r, hr, hnot⟩
      exact absurd (hf d hd r hr) hnot
    | some pr =>
      rcases pr with ⟨a, b⟩
      exact ⟨a, b, by rw [buildGraph, hdup, hf]⟩
  · intro ds hnd href hcyc
    rcases buildGraph_cases ds hnd href with ⟨o, _, _, _, hnc⟩ | ⟨p, hp, _, hall⟩
    · exact absurd hcyc hnc
    · exact ⟨p, hp, hall⟩
  · intro ds hnd href hnc
    rcases buildGraph_cases ds hnd href with ⟨o, ho, hperm, hok, _⟩ | ⟨p, _, hcyc, _⟩
    · exact ⟨o, ho, hperm, hok⟩
    · exact absurd hcyc hnc

/-- Witness for C5: a duplicated name fails, an undeclared reference fails, a
concrete two-node cycle fails naming its nodes, and the acyclic IaC program
declarations build into a valid topological order. -/
theorem graph_builder_spec_witness :
    (∃ n, buildGraph dupDecls = .error (.duplicateName n)) ∧
    (∃ a b, buildGraph dangDecls = .error (.danglingRef a b)) ∧
    (∃ path, buildGraph cycDecls = .error (.cycle path) ∧
        ∀ a, Relation.TransGen (edgeOf cycDecls) a a → a ∈ path) ∧
    (∃ order, buildGraph iacDecls = .ok order ∧ order.Perm iacDecls ∧
        topoOkFrom [] order = true) := by
  refine ⟨?_, ?_, ?_, ?_⟩
  · exact graph_builder_spec.1 dupDecls (by decide)
  · refine graph_builder_spec.2.1 dangDecls (by decide) ?_
    exact ⟨{ name := "alpha", rtype := "t", inputs := [], refs := ["ghost"] },
      by decide, "ghost", by decide, by decide⟩
  · refine graph_builder_spec.2.2.1 cycDecls (by decide) (by decide) ?_
    exact ⟨"cycA", Relation.TransGen.head
      ⟨{ name := "cycA", rtype := "t", inputs := [], refs := ["cycB"] }, by decide, rfl, by decide⟩
      (Relation.TransGen.single
        ⟨{ name := "cycB", rtype := "t", inputs := [], refs := ["cycA"] }, by decide, rfl,
          by decide⟩)⟩
  · refine graph_builder_spec.2.2.2.1 iacDecls (by decide) (by decide) ?_
    exact not_cyclic_of_buildGraph_ok iacDecls iacDecls (by decide) (by decide) rfl

end Engine
